import Mathlib

/-
Shallow embedding of the Personal Finance tracker core: the session
manager (src/src/contexts/AuthContext.tsx) and the transaction store with
its analytics aggregations (the TransactionContext source file).

Conventions of the embedding:
* localStorage is modelled as extra fields of the state records
  (storedUser, storedTransactions): setItem / removeItem become updates
  of those fields.
* Date.now() and new Date() are modelled by an explicit integer epoch
  millisecond timestamp passed as an argument; ISO date strings are
  modelled by their epoch milliseconds, so that the comparator
  new Date(b.date).getTime() - new Date(a.date).getTime() becomes integer
  comparison on the date field.
* JavaScript numbers are modelled as rationals.
* JavaScript plain objects used as dictionaries are modelled as
  association lists kept in key insertion order, since JS enumeration
  order (Object.entries) for non-index string keys is insertion order.
* Array.prototype.sort is stable (required by ES2019); it is modelled by
  a stable insertion sort for the comparator (a, b) => b.date - a.date.
* The async login / register functions are modelled by their resolved
  final state and boolean result (the simulated latency has no effect on
  the state transition).
-/

/-- Transaction type tag: the string union income | expense. -/
inductive TxType where
  | income
  | expense
  deriving DecidableEq

/-- Rendering of a TxType as the string interpolated into template keys. -/
def TxType.str : TxType → String
  | .income => "income"
  | .expense => "expense"

/-- The Transaction record of the transaction store. Dates are epoch ms. -/
structure Transaction where
  id : String
  userId : String
  amount : Rat
  type : TxType
  category : String
  description : String
  date : Int
  deriving DecidableEq

/-- The User record of AuthContext: a session identity without password. -/
structure SessionUser where
  id : String
  name : String
  email : String
  isAdmin : Bool
  deriving DecidableEq

/-- A record of the MOCK_USERS registry (with its password). -/
structure Account where
  id : String
  name : String
  email : String
  password : String
  isAdmin : Bool
  deriving DecidableEq

/-- State of AuthContext: the account registry, the current session, the
persisted session (localStorage key user) and the loading flag. -/
structure AuthState where
  users : List Account
  user : Option SessionUser
  storedUser : Option SessionUser
  isLoading : Bool
  deriving DecidableEq

/-- Dropping the password field: const \x7b password, ...userWithoutPassword \x7d. -/
def stripPassword (a : Account) : SessionUser :=
  { id := a.id, name := a.name, email := a.email, isAdmin := a.isAdmin }

/-- login of AuthContext: find a registry entry matching both email and
password; on a match set and persist the stripped user and resolve true,
otherwise change no session state and resolve false. -/
def login (st : AuthState) (email password : String) : AuthState × Bool :=
  match st.users.find? (fun u => u.email == email && u.password == password) with
  | some found =>
    let u := stripPassword found
    ({ st with user := some u, storedUser := some u, isLoading := false }, true)
  | none => ({ st with isLoading := false }, false)

/-- register of AuthContext: if some registry entry already has the email,
resolve false without touching the registry or the session; otherwise
append a new account with id String(MOCK_USERS.length + 1) and
isAdmin false, set and persist the stripped user, and resolve true. -/
def register (st : AuthState) (name email password : String) : AuthState × Bool :=
  if st.users.any (fun u => u.email == email) then
    ({ st with isLoading := false }, false)
  else
    ({ st with
        users := st.users ++
          [{ id := toString (st.users.length + 1), name := name, email := email,
             password := password, isAdmin := false }],
        user := some (stripPassword
          { id := toString (st.users.length + 1), name := name, email := email,
            password := password, isAdmin := false }),
        storedUser := some (stripPassword
          { id := toString (st.users.length + 1), name := name, email := email,
            password := password, isAdmin := false }),
        isLoading := false }, true)

/-- State of the TransactionContext provider: the in-memory ledger, the
persisted ledger (localStorage key transactions) and the current session
user it reads from AuthContext. -/
structure LedgerState where
  transactions : List Transaction
  storedTransactions : List Transaction
  user : Option SessionUser
  deriving DecidableEq

/-- The argument of addTransaction:
Omit<Transaction, id | userId | date> & \x7b date?: string \x7d. -/
structure TxInput where
  amount : Rat
  type : TxType
  category : String
  description : String
  date : Option Int
  deriving DecidableEq

/-- The new Transaction built inside addTransaction: id is
Date.now().toString(), userId the current session id, date defaulted to
the current time. -/
def newTxOf (u : SessionUser) (now : Int) (inp : TxInput) : Transaction :=
  { id := toString now, userId := u.id, amount := inp.amount, type := inp.type,
    category := inp.category, description := inp.description,
    date := inp.date.getD now }

/-- addTransaction: with no session user the state is unchanged (only a
toast is shown); with a session the new transaction is appended and the
whole updated ledger is written to storage in the same call. -/
def addTransaction (st : LedgerState) (now : Int) (inp : TxInput) : LedgerState :=
  match st.user with
  | none => st
  | some u =>
    { st with
      transactions := st.transactions ++ [newTxOf u now inp],
      storedTransactions := st.transactions ++ [newTxOf u now inp] }

/-- Stable insertion of a transaction into a list: the element goes in
front of the first entry whose date is strictly smaller, after any entry
with an equal or larger date. -/
def insByDate (x : Transaction) : List Transaction → List Transaction
  | [] => [x]
  | y :: ys => if y.date ≤ x.date then x :: y :: ys else y :: insByDate x ys

/-- Stable sort by date descending, modelling the ES2019-stable
Array.prototype.sort with comparator (a, b) => dateOf b - dateOf a. -/
def sortByDateDesc : List Transaction → List Transaction
  | [] => []
  | x :: xs => insByDate x (sortByDateDesc xs)

/-- getAllTransactions: a sorted copy of the full ledger. -/
def getAllTransactions (st : LedgerState) : List Transaction :=
  sortByDateDesc st.transactions

/-- getUserTransactions: the ledger filtered to one userId, sorted. -/
def getUserTransactions (st : LedgerState) (userId : String) : List Transaction :=
  sortByDateDesc (st.transactions.filter (fun t => t.userId == userId))

/-- getRecentTransactions: empty with no session, otherwise the current
user rows sorted by date descending and truncated by slice(0, limit). -/
def getRecentTransactions (st : LedgerState) (limit : Nat := 5) : List Transaction :=
  match st.user with
  | none => []
  | some u =>
    (sortByDateDesc (st.transactions.filter (fun t => t.userId == u.id))).take limit

/-- Lookup in a JS-object model: value of the first pair with this key. -/
def jsGet (m : List (String × α)) (k : String) : Option α :=
  (m.find? (fun p => p.1 == k)).map (fun p => p.2)

/-- Key list of a JS-object model, in insertion order. -/
def keysOf (m : List (String × α)) : List String :=
  m.map (fun p => p.1)

/-- JS property assignment obj[k] = v: replace the value in place when the
key exists, append the pair at the end otherwise. -/
def jsAssign : List (String × α) → String → α → List (String × α)
  | [], k, v => [(k, v)]
  | p :: rest, k, v =>
    if p.1 == k then (k, v) :: rest else p :: jsAssign rest k v

/-- The JS pattern if (!obj[k]) obj[k] = d; obj[k] = f(obj[k]): seed a
missing key with its default, then update the value in place. -/
def jsUpsert (m : List (String × α)) (k : String) (d : α) (f : α → α) :
    List (String × α) :=
  match jsGet m k with
  | some v => jsAssign m k (f v)
  | none => jsAssign m k (f d)

/-- JS update obj[k] = f(obj[k]) without a seeding guard: on a missing key
the property access throws (obj[k] is undefined), modelled as none. -/
def jsModify : List (String × α) → String → (α → α) → Option (List (String × α))
  | [], _, _ => none
  | p :: rest, k, f =>
    if p.1 == k then some ((k, f p.2) :: rest)
    else (jsModify rest k f).map (fun m => p :: m)

/-- Folding a sequence of rows into a keyed accumulator object, the shape
shared by getMonthlyData and getCategoryData. -/
def foldUpsert (key : ι → String) (dflt : ι → α) (step : ι → α → α)
    (m : List (String × α)) (ts : List ι) : List (String × α) :=
  ts.foldl (fun acc t => jsUpsert acc (key t) (dflt t) (step t)) m

/-- The value a chain of upserts leaves under one key, given the value
already there (if any) and the rows hitting that key, in order. -/
def chainUp (dflt : ι → α) (step : ι → α → α) : Option α → List ι → Option α
  | o, [] => o
  | o, t :: l => chainUp dflt step (some (step t (o.getD (dflt t)))) l

/-- The keys a fold appends beyond an initial key set: incoming keys not
seen before, kept in first-seen order. -/
def newKeys : List String → List String → List String
  | _, [] => []
  | seen, k :: ks =>
    if k ∈ seen then newKeys seen ks else k :: newKeys (seen ++ [k]) ks

/-- Keys of a stream deduplicated in first-seen order. -/
def firstSeenKeys (ks : List String) : List String :=
  newKeys [] ks

/-- Element of a list of labels at an index, with an empty default. -/
def strAt (l : List String) (i : Nat) : String :=
  match l.get? i with
  | some s => s
  | none => ""

/-- The en-US short month names produced by toLocaleString. -/
def monthNames : List String :=
  ["Jan", "Feb", "Mar", "Apr", "May", "Jun",
   "Jul", "Aug", "Sep", "Oct", "Nov", "Dec"]

/-- The en-US short weekday names produced by toLocaleString. -/
def weekdayNames : List String :=
  ["Sun", "Mon", "Tue", "Wed", "Thu", "Fri", "Sat"]

/-- Milliseconds per day, the divisor 1000 * 60 * 60 * 24. -/
def msPerDay : Int := 86400000

/-- Calendar day number (days since 1970-01-01) of an epoch-ms instant. -/
def dayNumber (ms : Int) : Int :=
  Int.fdiv ms msPerDay

/-- Year and month (1..12) of a civil day number, by the standard
civil-from-days algorithm; every division below has non-negative
operands for the dates in scope. -/
def civilYM (z0 : Int) : Int × Int :=
  let z := z0 + 719468
  let era := (if 0 ≤ z then z else z - 146096) / 146097
  let doe := z - era * 146097
  let yoe := (doe - doe / 1460 + doe / 36524 - doe / 146096) / 365
  let y := yoe + era * 400
  let doy := doe - (365 * yoe + yoe / 4 - yoe / 100)
  let mp := (5 * doy + 2) / 153
  let m := if mp < 10 then mp + 3 else mp - 9
  (if m ≤ 2 then y + 1 else y, m)

/-- The bucket label of getMonthlyData:
toLocaleString(en-US, \x7b month: short, year: numeric \x7d). -/
def monthLabel (ms : Int) : String :=
  strAt monthNames ((civilYM (dayNumber ms)).2 - 1).toNat ++ " " ++
    toString (civilYM (dayNumber ms)).1

/-- The bucket label of getDailyData for a day number:
toLocaleString(en-US, \x7b weekday: short \x7d); day 0 (1970-01-01) is a
Thursday. -/
def weekdayName (d : Int) : String :=
  strAt weekdayNames ((d + 4) % 7).toNat

/-- The \x7b income, expense \x7d accumulator of the monthly and daily
aggregations. -/
structure IncExp where
  income : Rat
  expense : Rat
  deriving DecidableEq

/-- Folding one transaction into an income/expense accumulator. -/
def applyIncExp (t : Transaction) (a : IncExp) : IncExp :=
  match t.type with
  | .income => { a with income := a.income + t.amount }
  | .expense => { a with expense := a.expense + t.amount }

/-- An entry of the getMonthlyData result. -/
structure MonthEntry where
  month : String
  income : Rat
  expense : Rat
  deriving DecidableEq

/-- JS Array.prototype.slice(-n): the last n elements (all of them when
the list is shorter). -/
def lastN (n : Nat) (l : List α) : List α :=
  l.drop (l.length - n)

/-- getMonthlyData: empty with no session; otherwise fold the current
user rows into buckets keyed by the locale month label, emit the buckets
in insertion order and keep the last six. -/
def getMonthlyData (st : LedgerState) : List MonthEntry :=
  match st.user with
  | none => []
  | some u =>
    lastN 6 ((foldUpsert (fun t => monthLabel t.date) (fun _ => ⟨0, 0⟩) applyIncExp []
        (st.transactions.filter (fun t => t.userId == u.id))).map
      (fun p => ⟨p.1, p.2.income, p.2.expense⟩))

/-- An entry of the getDailyData result. -/
structure DayEntry where
  day : String
  income : Rat
  expense : Rat
  deriving DecidableEq

/-- The seeding loop of getDailyData: for i from 6 down to 0, assign the
weekday label of (today minus i days) a zero accumulator. -/
def seedDaily (td : Int) : List (String × IncExp) :=
  (List.range 7).foldl
    (fun m (j : Nat) => jsAssign m (weekdayName (td - 6 + (j : Int))) ⟨0, 0⟩) []

/-- The seven seeded weekday labels, in loop order. -/
def seedLabels (td : Int) : List String :=
  (List.range 7).map (fun (j : Nat) => weekdayName (td - 6 + (j : Int)))

/-- One step of the transaction fold of getDailyData: rows whose floored
day difference from today is below 7 are added, via an unguarded
dailyData[dayName] update, to the bucket of their weekday label. -/
def dailyStep (todayMs : Int) (m : List (String × IncExp)) (t : Transaction) :
    Option (List (String × IncExp)) :=
  if (todayMs - t.date).fdiv msPerDay < 7 then
    jsModify m (weekdayName (dayNumber t.date)) (applyIncExp t)
  else
    some m

/-- getDailyData: empty with no session; otherwise seed the seven weekday
buckets of the last seven days at zero, fold the current user rows in, and
emit the buckets in insertion order. The unguarded bucket update would
throw on a label that was never seeded, hence the Option result. -/
def getDailyData (st : LedgerState) (todayMs : Int) : Option (List DayEntry) :=
  match st.user with
  | none => some []
  | some u =>
    ((st.transactions.filter (fun t => t.userId == u.id)).foldlM (dailyStep todayMs)
        (seedDaily (dayNumber todayMs))).map
      (List.map (fun p => ⟨p.1, p.2.income, p.2.expense⟩))

/-- The accumulator of getCategoryData. -/
structure CatAgg where
  amount : Rat
  type : TxType
  deriving DecidableEq

/-- An entry of the getCategoryData result. -/
structure CatEntry where
  category : String
  amount : Rat
  type : TxType
  deriving DecidableEq

/-- The grouping key of getCategoryData, the template string
category-type. -/
def catKey (c : String) (ty : TxType) : String :=
  c ++ "-" ++ ty.str

/-- The leading segment of a string up to the first hyphen, modelling
key.split(hyphen)[0] of the emission step of getCategoryData. -/
def firstSegment (s : String) : String :=
  String.mk (s.data.takeWhile (fun ch => ch != '-'))

/-- Folding one transaction into a category accumulator. -/
def applyTxCat (t : Transaction) (a : CatAgg) : CatAgg :=
  { a with amount := a.amount + t.amount }

/-- getCategoryData: empty with no session; otherwise fold the current
user rows into buckets keyed by category-type, then emit, in insertion
order, entries whose reported category is the first split segment of the
key. -/
def getCategoryData (st : LedgerState) : List CatEntry :=
  match st.user with
  | none => []
  | some u =>
    (foldUpsert (fun t => catKey t.category t.type) (fun t => ⟨0, t.type⟩) applyTxCat []
        (st.transactions.filter (fun t => t.userId == u.id))).map
      (fun p => ⟨firstSegment p.1, p.2.amount, p.2.type⟩)

/-- Sum of the amounts of a list of transactions. -/
def txAmountSum (l : List Transaction) : Rat :=
  (l.map (fun t => t.amount)).sum

/-- The full monthly bucket list as the spec words it: buckets in
first-seen key order over the given transaction sequence, each summing
the amount of its income rows and of its expense rows. -/
def monthlyBucketsSpec (ts : List Transaction) : List MonthEntry :=
  (firstSeenKeys (ts.map (fun t => monthLabel t.date))).map
    (fun k =>
      ⟨k,
        txAmountSum ((ts.filter (fun t => monthLabel t.date == k)).filter
          (fun t => t.type == TxType.income)),
        txAmountSum ((ts.filter (fun t => monthLabel t.date == k)).filter
          (fun t => t.type == TxType.expense))⟩)

/-- Session user matching MOCK_USERS entry 1. -/
def exUser : SessionUser := ⟨"1", "Admin User", "admin@example.com", true⟩

/-- The MOCK_USERS registry of AuthContext, with no session restored. -/
def exAuth : AuthState :=
  ⟨[⟨"1", "Admin User", "admin@example.com", "admin123", true⟩,
    ⟨"2", "Test User", "user@example.com", "user123", false⟩],
   none, none, false⟩

/-- Sample row: an income of user 1. -/
def exTxA : Transaction := ⟨"100", "1", 50000, .income, "Salary", "Monthly salary", 100⟩

/-- Sample row: an expense of user 1. -/
def exTxB : Transaction := ⟨"200", "1", 5000, .expense, "Food", "Grocery shopping", 200⟩

/-- Sample row: an income of user 2. -/
def exTxC : Transaction := ⟨"300", "2", 25000, .income, "Freelance", "Website development", 300⟩

/-- A ledger state with an active session for user 1. -/
def exLedger : LedgerState := ⟨[exTxA, exTxB, exTxC], [exTxA, exTxB, exTxC], some exUser⟩

/-- An addTransaction argument. -/
def exInput : TxInput := ⟨2500, .expense, "Transport", "Fuel", none⟩

/-- First-inserted transaction of an equal-date pair. -/
def exTieA : Transaction := ⟨"1", "1", 1, .income, "A", "", 0⟩

/-- Second-inserted transaction of an equal-date pair. -/
def exTieB : Transaction := ⟨"2", "1", 1, .income, "B", "", 0⟩

/-- A ledger holding two transactions with the same date. -/
def exTieLedger : LedgerState := ⟨[exTieA, exTieB], [], none⟩

/-- A transaction whose category contains a hyphen. -/
def exHyphTx : Transaction := ⟨"7", "1", 7, .expense, "Food-Drinks", "", 5⟩

/-- A ledger holding the hyphenated-category transaction, session active. -/
def exHyphLedger : LedgerState := ⟨[exHyphTx], [], some exUser⟩

/-- A ledger state with no active session. -/
def exNoneLedger : LedgerState := ⟨[exTxA], [exTxA], none⟩

/-- An empty ledger with an active session. -/
def exEmptyLedger : LedgerState := ⟨[], [], some exUser⟩

/-- Inserting keeps the list up to permutation. -/
theorem insByDate_perm (x : Transaction) (l : List Transaction) :
    List.Perm (insByDate x l) (x :: l) := by
  induction l with
  | nil => exact List.Perm.refl [x]
  | cons y ys ih =>
    by_cases h : y.date ≤ x.date
    · rw [insByDate, if_pos h]
    · rw [insByDate, if_neg h]
      exact (ih.cons y).trans (List.Perm.swap x y ys)

/-- The sorted view is a permutation of the ledger. -/
theorem sortByDateDesc_perm (l : List Transaction) : List.Perm (sortByDateDesc l) l := by
  induction l with
  | nil => exact List.Perm.nil
  | cons x xs ih => exact (insByDate_perm x (sortByDateDesc xs)).trans (ih.cons x)

/-- Inserting into a date-descending list keeps it date-descending. -/
theorem insByDate_pairwise (x : Transaction) (l : List Transaction)
    (h : l.Pairwise (fun a b => b.date ≤ a.date)) :
    (insByDate x l).Pairwise (fun a b => b.date ≤ a.date) := by
  induction l with
  | nil => simp [insByDate]
  | cons y ys ih =>
    rcases List.pairwise_cons.mp h with ⟨hy, hys⟩
    by_cases hle : y.date ≤ x.date
    · simp only [insByDate, if_pos hle]
      refine List.pairwise_cons.mpr ⟨?_, h⟩
      intro b hb
      rcases List.mem_cons.mp hb with rfl | hb
      · exact hle
      · exact le_trans (hy b hb) hle
    · simp only [insByDate, if_neg hle]
      refine List.pairwise_cons.mpr ⟨?_, ih hys⟩
      intro b hb
      rcases List.mem_cons.mp ((insByDate_perm x ys).mem_iff.mp hb) with rfl | hb
      · exact le_of_lt (not_le.mp hle)
      · exact hy b hb

/-- The sorted view is date-descending. -/
theorem sortByDateDesc_pairwise (l : List Transaction) :
    (sortByDateDesc l).Pairwise (fun a b => b.date ≤ a.date) := by
  induction l with
  | nil => simp [sortByDateDesc]
  | cons x xs ih => exact insByDate_pairwise x _ ih

/-- Restricting an insertion to one date value: the element lands in
front of every equal-date element already present. -/
theorem insByDate_filter_date (x : Transaction) (l : List Transaction) (dv : Int) :
    (insByDate x l).filter (fun t => t.date == dv) =
      if x.date = dv then x :: l.filter (fun t => t.date == dv)
      else l.filter (fun t => t.date == dv) := by
  induction l with
  | nil => by_cases hx : x.date = dv <;> simp [insByDate, List.filter_cons, hx]
  | cons y ys ih =>
    by_cases hle : y.date ≤ x.date
    · rw [insByDate, if_pos hle]
      by_cases hx : x.date = dv <;> simp [List.filter_cons, hx]
    · rw [insByDate, if_neg hle]
      have hxy : x.date < y.date := not_le.mp hle
      by_cases hx : x.date = dv
      · have hy : ¬ y.date = dv := by omega
        simp [List.filter_cons, ih, hx, hy]
      · by_cases hy : y.date = dv <;> simp [List.filter_cons, ih, hx, hy]

/-- Stability: sorting does not reorder transactions of one date value. -/
theorem sortByDateDesc_filter_date (l : List Transaction) (dv : Int) :
    (sortByDateDesc l).filter (fun t => t.date == dv) =
      l.filter (fun t => t.date == dv) := by
  induction l with
  | nil => rfl
  | cons x xs ih =>
    by_cases hx : x.date = dv <;>
      simp [sortByDateDesc, insByDate_filter_date, hx, List.filter_cons, ih]

/-- C5: getAllTransactions returns a permutation of the full ledger
sorted by date descending; since Array.prototype.sort is stable (ES2019),
transactions of equal date keep insertion order ascending
(earlier-inserted first), which amends the claimed descending tie order. -/
theorem claim_C5_all_order (st : LedgerState) :
    List.Perm (getAllTransactions st) st.transactions ∧
    (getAllTransactions st).Pairwise (fun a b => b.date ≤ a.date) ∧
    ∀ dv : Int, (getAllTransactions st).filter (fun t => t.date == dv) =
      st.transactions.filter (fun t => t.date == dv) :=
  ⟨sortByDateDesc_perm _, sortByDateDesc_pairwise _,
    fun dv => sortByDateDesc_filter_date _ dv⟩

/-- C5 counterexample: two transactions with the same date come back from
getAllTransactions in insertion order ascending, not descending
(later-inserted first) as the claim states. -/
theorem claim_C5_counterexample :
    getAllTransactions exTieLedger = [exTieA, exTieB] ∧
    getAllTransactions exTieLedger ≠ [exTieB, exTieA] :=
  ⟨rfl, by decide⟩

/-- C3: getRecentTransactions is the take of getUserTransactions of the
session user, hence a prefix of it in its descending-date order of at
most limit rows; with no active session it returns the empty list; the
default limit is 5. -/
theorem claim_C3_recent (st : LedgerState) :
    (∀ u : SessionUser, ∀ limit : Nat, st.user = some u →
      getRecentTransactions st limit = (getUserTransactions st u.id).take limit ∧
      getRecentTransactions st limit ++ (getUserTransactions st u.id).drop limit =
        getUserTransactions st u.id ∧
      (getRecentTransactions st limit).length ≤ limit) ∧
    (∀ limit : Nat, st.user = none → getRecentTransactions st limit = []) ∧
    getRecentTransactions st = getRecentTransactions st 5 := by
  refine ⟨?_, ?_, rfl⟩
  · intro u limit hu
    have h1 : getRecentTransactions st limit = (getUserTransactions st u.id).take limit := by
      simp [getRecentTransactions, hu, getUserTransactions]
    refine ⟨h1, ?_, ?_⟩
    · rw [h1]
      exact List.take_append_drop limit _
    · rw [h1, List.length_take]
      exact min_le_left _ _
  · intro limit hu
    simp [getRecentTransactions, hu]

/-- C3 witness at the sample ledger with limit 2. -/
theorem claim_C3_witness :
    exLedger.user = some exUser ∧
    (getRecentTransactions exLedger 2 = (getUserTransactions exLedger exUser.id).take 2 ∧
     getRecentTransactions exLedger 2 ++ (getUserTransactions exLedger exUser.id).drop 2 =
       getUserTransactions exLedger exUser.id ∧
     (getRecentTransactions exLedger 2).length ≤ 2) :=
  ⟨rfl, (claim_C3_recent exLedger).1 exUser 2 rfl⟩

/-- C9: a transaction appended while a session is active carries the
session user id by construction (the add interface takes no owner
argument), and an add attempted with no active session leaves the whole
state, in-memory ledger and persisted ledger included, unchanged. -/
theorem claim_C9_owner_by_construction (st : LedgerState) (now : Int) (inp : TxInput) :
    (∀ u : SessionUser, st.user = some u →
      (addTransaction st now inp).transactions = st.transactions ++ [newTxOf u now inp] ∧
      (newTxOf u now inp).userId = u.id ∧
      (addTransaction st now inp).storedTransactions =
        st.transactions ++ [newTxOf u now inp]) ∧
    (st.user = none → addTransaction st now inp = st) := by
  constructor
  · intro u hu
    refine ⟨?_, rfl, ?_⟩ <;> simp [addTransaction, hu]
  · intro hu
    simp [addTransaction, hu]

/-- C9 witness at the sample ledger and at a session-less ledger. -/
theorem claim_C9_witness :
    (exLedger.user = some exUser ∧
      (addTransaction exLedger 99 exInput).transactions =
        exLedger.transactions ++ [newTxOf exUser 99 exInput] ∧
      (newTxOf exUser 99 exInput).userId = exUser.id) ∧
    (exNoneLedger.user = none ∧ addTransaction exNoneLedger 99 exInput = exNoneLedger) :=
  ⟨⟨rfl, ((claim_C9_owner_by_construction exLedger 99 exInput).1 exUser rfl).1,
      ((claim_C9_owner_by_construction exLedger 99 exInput).1 exUser rfl).2.1⟩,
   ⟨rfl, (claim_C9_owner_by_construction exNoneLedger 99 exInput).2 rfl⟩⟩

/-- C7: register resolves false on a duplicate email, leaving registry
size, registry content and session untouched; on a fresh email it
appends exactly one account whose id is the prior registry count plus
one rendered as a string, with isAdmin false. -/
theorem claim_C7_register_duplicate (st : AuthState) (name email password : String) :
    (st.users.any (fun u => u.email == email) = true →
      (register st name email password).2 = false ∧
      (register st name email password).1.users = st.users ∧
      (register st name email password).1.users.length = st.users.length ∧
      (register st name email password).1.user = st.user ∧
      (register st name email password).1.storedUser = st.storedUser) ∧
    (st.users.any (fun u => u.email == email) = false →
      (register st name email password).2 = true ∧
      (register st name email password).1.users = st.users ++
        [{ id := toString (st.users.length + 1), name := name, email := email,
           password := password, isAdmin := false }]) := by
  constructor
  · intro h
    simp [register, h]
  · intro h
    simp [register, h]

/-- C7 witness at the MOCK_USERS registry: a duplicate email and a fresh
email. -/
theorem claim_C7_witness :
    (exAuth.users.any (fun u => u.email == "admin@example.com") = true ∧
      (register exAuth ("Eve") ("admin@example.com") ("pw")).2 = false ∧
      (register exAuth ("Eve") ("admin@example.com") ("pw")).1.users = exAuth.users) ∧
    (exAuth.users.any (fun u => u.email == "eve@x.com") = false ∧
      (register exAuth ("Eve") ("eve@x.com") ("pw")).2 = true) :=
  ⟨⟨by decide,
    ((claim_C7_register_duplicate exAuth ("Eve") ("admin@example.com") ("pw")).1
      (by decide)).1,
    ((claim_C7_register_duplicate exAuth ("Eve") ("admin@example.com") ("pw")).1
      (by decide)).2.1⟩,
   ⟨by decide,
    ((claim_C7_register_duplicate exAuth ("Eve") ("eve@x.com") ("pw")).2
      (by decide)).1⟩⟩

/-- C8: a login whose credentials match no account both in email and in
password resolves false and leaves the session and the persisted session
exactly as they were. -/
theorem claim_C8_login_failure (st : AuthState) (email password : String)
    (h : ∀ u ∈ st.users, ¬(u.email = email ∧ u.password = password)) :
    (login st email password).2 = false ∧
    (login st email password).1.user = st.user ∧
    (login st email password).1.storedUser = st.storedUser := by
  have hf : st.users.find? (fun u => u.email == email && u.password == password) = none := by
    rw [List.find?_eq_none]
    intro u hu
    simp only [Bool.and_eq_true, beq_iff_eq]
    exact h u hu
  simp [login, hf]

/-- C8 witness: the scenario login(bad@x.com, wrong) at MOCK_USERS. -/
theorem claim_C8_witness :
    (login exAuth ("bad@x.com") ("wrong")).2 = false ∧
    (login exAuth ("bad@x.com") ("wrong")).1.user = exAuth.user ∧
    (login exAuth ("bad@x.com") ("wrong")).1.storedUser = exAuth.storedUser :=
  claim_C8_login_failure exAuth ("bad@x.com") ("wrong") (by decide)

/-- C1: with an active session, a valid add call (the freshness
hypothesis renders the unique monotonic id of the data model) is counted
exactly once by getAllTransactions, belongs to
getUserTransactions ownerId exactly when the owner matches the new row,
and the persisted ledger equals the in-memory ledger when add returns. -/
theorem claim_C1_read_after_write (st : LedgerState) (u : SessionUser) (now : Int)
    (inp : TxInput) (hu : st.user = some u) (hamt : 0 < inp.amount)
    (hcat : inp.category ≠ "")
    (hfresh : ∀ t ∈ st.transactions, t.id ≠ toString now) :
    (getAllTransactions (addTransaction st now inp)).count (newTxOf u now inp) = 1 ∧
    (∀ ownerId : String,
      newTxOf u now inp ∈ getUserTransactions (addTransaction st now inp) ownerId ↔
        (newTxOf u now inp).userId = ownerId) ∧
    (addTransaction st now inp).storedTransactions =
      (addTransaction st now inp).transactions := by
  have htr : (addTransaction st now inp).transactions =
      st.transactions ++ [newTxOf u now inp] := by
    simp [addTransaction, hu]
  have hnm : newTxOf u now inp ∉ st.transactions := fun hmem => hfresh _ hmem rfl
  refine ⟨?_, ?_, ?_⟩
  · rw [getAllTransactions, (sortByDateDesc_perm _).count_eq, htr, List.count_append]
    rw [List.count_eq_zero.mpr hnm]
    simp
  · intro ownerId
    simp only [getUserTransactions, htr]
    rw [(sortByDateDesc_perm _).mem_iff, List.mem_filter]
    constructor
    · intro hmem
      exact beq_iff_eq.mp hmem.2
    · intro heq
      exact ⟨List.mem_append_right _ (List.mem_singleton.mpr rfl), beq_iff_eq.mpr heq⟩
  · simp [addTransaction, hu]

/-- C1 witness: the add of 2500 expense Transport at the sample ledger. -/
theorem claim_C1_witness :
    (exLedger.user = some exUser ∧ (0 : Rat) < exInput.amount ∧ exInput.category ≠ "") ∧
    (getAllTransactions (addTransaction exLedger 99 exInput)).count
        (newTxOf exUser 99 exInput) = 1 ∧
    (newTxOf exUser 99 exInput ∈
        getUserTransactions (addTransaction exLedger 99 exInput) ("1") ↔
      (newTxOf exUser 99 exInput).userId = "1") ∧
    (addTransaction exLedger 99 exInput).storedTransactions =
      (addTransaction exLedger 99 exInput).transactions :=
  ⟨⟨rfl, by decide, by decide⟩,
   (claim_C1_read_after_write exLedger exUser 99 exInput rfl (by decide) (by decide)
      (by decide)).1,
   (claim_C1_read_after_write exLedger exUser 99 exInput rfl (by decide) (by decide)
      (by decide)).2.1 ("1"),
   (claim_C1_read_after_write exLedger exUser 99 exInput rfl (by decide) (by decide)
      (by decide)).2.2⟩

/-- Unfolding of jsGet over a cons cell. -/
theorem jsGet_cons (q : String × α) (l : List (String × α)) (k2 : String) :
    jsGet (q :: l) k2 = if (q.1 == k2) = true then some q.2 else jsGet l k2 := by
  by_cases h : (q.1 == k2) = true <;> simp [jsGet, List.find?, h]

/-- Reading back through an assignment. -/
theorem jsGet_jsAssign (m : List (String × α)) (k k2 : String) (v : α) :
    jsGet (jsAssign m k v) k2 = if k2 = k then some v else jsGet m k2 := by
  have hbt : k2 = k → (k == k2) = true := fun h => beq_iff_eq.mpr h.symm
  have hbf : ¬ k2 = k → ¬ (k == k2) = true := fun h hb => h (beq_iff_eq.mp hb).symm
  induction m with
  | nil =>
    by_cases h : k2 = k
    · rw [if_pos h, jsAssign, jsGet_cons, if_pos (hbt h)]
    · rw [if_neg h, jsAssign, jsGet_cons, if_neg (hbf h)]
  | cons p rest ih =>
    by_cases hp : (p.1 == k) = true
    · have hpk : p.1 = k := beq_iff_eq.mp hp
      by_cases h : k2 = k
      · rw [if_pos h, jsAssign, if_pos hp, jsGet_cons, if_pos (hbt h)]
      · rw [if_neg h, jsAssign, if_pos hp, jsGet_cons, if_neg (hbf h),
          jsGet_cons, hpk, if_neg (hbf h)]
    · by_cases hq : (p.1 == k2) = true
      · have hk2 : ¬ k2 = k := fun hk => hp (by rw [hk] at hq; exact hq)
        rw [if_neg hk2, jsAssign, if_neg hp, jsGet_cons, if_pos hq, jsGet_cons, if_pos hq]
      · by_cases h : k2 = k
        · rw [if_pos h, jsAssign, if_neg hp, jsGet_cons, if_neg hq, ih, if_pos h]
        · rw [if_neg h, jsAssign, if_neg hp, jsGet_cons, if_neg hq, ih, if_neg h,
            jsGet_cons, if_neg hq]

/-- Unfolding of keysOf over a cons cell. -/
theorem keysOf_cons (p : String × α) (l : List (String × α)) :
    keysOf (p :: l) = p.1 :: keysOf l := rfl

/-- Assignment keeps the key list when the key is present and appends it
otherwise. -/
theorem keysOf_jsAssign (m : List (String × α)) (k : String) (v : α) :
    keysOf (jsAssign m k v) =
      if k ∈ keysOf m then keysOf m else keysOf m ++ [k] := by
  induction m with
  | nil => simp [jsAssign, keysOf]
  | cons p rest ih =>
    by_cases hp : (p.1 == k) = true
    · have hpk : p.1 = k := beq_iff_eq.mp hp
      have hmem : k ∈ keysOf (p :: rest) := by
        rw [keysOf_cons, hpk]
        exact List.mem_cons_self k _
      rw [jsAssign, if_pos hp, if_pos hmem, keysOf_cons, keysOf_cons, hpk]
    · have hpk : ¬ p.1 = k := fun hh => hp (beq_iff_eq.mpr hh)
      rw [jsAssign, if_neg hp, keysOf_cons]
      by_cases hmem : k ∈ keysOf rest
      · have hmem2 : k ∈ keysOf (p :: rest) := by
          rw [keysOf_cons]
          exact List.mem_cons_of_mem _ hmem
        rw [ih, if_pos hmem, if_pos hmem2, keysOf_cons]
      · have hmem2 : ¬ k ∈ keysOf (p :: rest) := by
          rw [keysOf_cons]
          intro hh
          rcases List.mem_cons.mp hh with he | hh2
          · exact hpk he.symm
          · exact hmem hh2
        rw [ih, if_neg hmem, if_neg hmem2, keysOf_cons, List.cons_append]

/-- A key misses in jsGet exactly when it is not among the keys. -/
theorem jsGet_eq_none_iff (m : List (String × α)) (k : String) :
    jsGet m k = none ↔ ¬ k ∈ keysOf m := by
  induction m with
  | nil => simp [jsGet, keysOf]
  | cons p rest ih =>
    rw [jsGet_cons, keysOf_cons]
    by_cases hp : (p.1 == k) = true
    · have hpk : p.1 = k := beq_iff_eq.mp hp
      rw [if_pos hp]
      simp [hpk]
    · have hpk : ¬ p.1 = k := fun hh => hp (beq_iff_eq.mpr hh)
      rw [if_neg hp, ih]
      constructor
      · intro hh hmem
        rcases List.mem_cons.mp hmem with he | h2
        · exact hpk he.symm
        · exact hh h2
      · intro hh h2
        exact hh (List.mem_cons_of_mem _ h2)

/-- Reading the upserted key gives the stepped default or stepped old
value. -/
theorem jsGet_jsUpsert_self (m : List (String × α)) (k : String) (d : α) (f : α → α) :
    jsGet (jsUpsert m k d f) k = some (f ((jsGet m k).getD d)) := by
  rcases hg : jsGet m k with _ | v
  · rw [jsUpsert, hg, jsGet_jsAssign, if_pos rfl]
    simp
  · rw [jsUpsert, hg, jsGet_jsAssign, if_pos rfl]
    simp

/-- Reading another key through an upsert is unchanged. -/
theorem jsGet_jsUpsert_ne (m : List (String × α)) (k k2 : String) (d : α) (f : α → α)
    (h : ¬ k2 = k) : jsGet (jsUpsert m k d f) k2 = jsGet m k2 := by
  rcases hg : jsGet m k with _ | v
  · rw [jsUpsert, hg, jsGet_jsAssign, if_neg h]
  · rw [jsUpsert, hg, jsGet_jsAssign, if_neg h]

/-- An upsert keeps the key list when the key is present and appends it
otherwise. -/
theorem keysOf_jsUpsert (m : List (String × α)) (k : String) (d : α) (f : α → α) :
    keysOf (jsUpsert m k d f) =
      if k ∈ keysOf m then keysOf m else keysOf m ++ [k] := by
  rcases hg : jsGet m k with _ | v
  · rw [jsUpsert, hg, keysOf_jsAssign]
  · rw [jsUpsert, hg, keysOf_jsAssign]

/-- The value a keyed fold leaves under one key is the chained update of
what was there by the rows hitting that key, in order. -/
theorem jsGet_foldUpsert (key : ι → String) (dflt : ι → α) (step : ι → α → α)
    (ts : List ι) (m : List (String × α)) (k : String) :
    jsGet (foldUpsert key dflt step m ts) k =
      chainUp dflt step (jsGet m k) (ts.filter (fun t => key t == k)) := by
  induction ts generalizing m with
  | nil => rfl
  | cons t ts ih =>
    have hstep : foldUpsert key dflt step m (t :: ts) =
        foldUpsert key dflt step (jsUpsert m (key t) (dflt t) (step t)) ts := rfl
    rw [hstep, ih, List.filter_cons]
    by_cases hk : (key t == k) = true
    · have hkk : key t = k := beq_iff_eq.mp hk
      rw [if_pos hk, ← hkk, jsGet_jsUpsert_self, chainUp]
    · have hkk : ¬ k = key t := fun hh => hk (beq_iff_eq.mpr hh.symm)
      rw [if_neg hk, jsGet_jsUpsert_ne _ _ _ _ _ hkk]

/-- The key list a keyed fold produces: the initial keys followed by the
new keys in first-seen order. -/
theorem keysOf_foldUpsert (key : ι → String) (dflt : ι → α) (step : ι → α → α)
    (ts : List ι) (m : List (String × α)) :
    keysOf (foldUpsert key dflt step m ts) =
      keysOf m ++ newKeys (keysOf m) (ts.map key) := by
  induction ts generalizing m with
  | nil => simp [foldUpsert, newKeys]
  | cons t ts ih =>
    have hstep : foldUpsert key dflt step m (t :: ts) =
        foldUpsert key dflt step (jsUpsert m (key t) (dflt t) (step t)) ts := rfl
    rw [hstep, ih, keysOf_jsUpsert, List.map_cons, newKeys]
    by_cases hmem : key t ∈ keysOf m
    · rw [if_pos hmem, if_pos hmem]
    · rw [if_neg hmem, if_neg hmem, List.append_assoc, List.singleton_append]

/-- Membership in the new-key list. -/
theorem mem_newKeys (ks : List String) (seen : List String) (k : String) :
    k ∈ newKeys seen ks ↔ (k ∈ ks ∧ ¬ k ∈ seen) := by
  induction ks generalizing seen with
  | nil => simp [newKeys]
  | cons h t ih =>
    rw [newKeys]
    by_cases hm : h ∈ seen
    · rw [if_pos hm, ih]
      constructor
      · exact fun hh => ⟨List.mem_cons_of_mem _ hh.1, hh.2⟩
      · intro hh
        rcases List.mem_cons.mp hh.1 with he | ht
        · exact absurd (he ▸ hm) hh.2
        · exact ⟨ht, hh.2⟩
    · rw [if_neg hm]
      constructor
      · intro hh
        rcases List.mem_cons.mp hh with he | ht
        · exact ⟨he ▸ List.mem_cons_self h t, he ▸ hm⟩
        · rcases (ih (seen ++ [h])).mp ht with ⟨h1, h2⟩
          refine ⟨List.mem_cons_of_mem _ h1, fun hs => h2 (List.mem_append_left _ hs)⟩
      · intro hh
        rcases List.mem_cons.mp hh.1 with he | ht
        · exact he ▸ List.mem_cons_self h _
        · by_cases hkh : k = h
          · exact hkh ▸ List.mem_cons_self h _
          · refine List.mem_cons_of_mem _ ((ih (seen ++ [h])).mpr ⟨ht, ?_⟩)
            intro hs
            rcases List.mem_append.mp hs with h1 | h2
            · exact hh.2 h1
            · exact hkh (List.mem_singleton.mp h2)

/-- The new-key list never repeats a key. -/
theorem nodup_newKeys (ks : List String) (seen : List String) :
    (newKeys seen ks).Nodup := by
  induction ks generalizing seen with
  | nil => simp [newKeys]
  | cons h t ih =>
    rw [newKeys]
    by_cases hm : h ∈ seen
    · rw [if_pos hm]
      exact ih seen
    · rw [if_neg hm]
      refine List.nodup_cons.mpr ⟨?_, ih (seen ++ [h])⟩
      intro hmem
      exact ((mem_newKeys t (seen ++ [h]) h).mp hmem).2
        (List.mem_append_right _ (List.mem_singleton.mpr rfl))

/-- Association lists with the same repeat-free key list and the same
lookups are equal. -/
theorem assoc_ext (m1 m2 : List (String × α)) (hk : keysOf m1 = keysOf m2)
    (hnd : (keysOf m1).Nodup) (hg : ∀ k, jsGet m1 k = jsGet m2 k) : m1 = m2 := by
  induction m1 generalizing m2 with
  | nil =>
    cases m2 with
    | nil => rfl
    | cons q l2 => exact absurd hk (by simp [keysOf])
  | cons p l1 ih =>
    cases m2 with
    | nil => exact absurd hk (by simp [keysOf])
    | cons q l2 =>
      rw [keysOf_cons, keysOf_cons] at hk
      have hq : p.1 = q.1 := List.head_eq_of_cons_eq hk
      have hkt : keysOf l1 = keysOf l2 := List.tail_eq_of_cons_eq hk
      rw [keysOf_cons] at hnd
      rcases List.nodup_cons.mp hnd with ⟨hp1, hndt⟩
      have hv : p.2 = q.2 := by
        have := hg p.1
        rw [jsGet_cons, jsGet_cons, if_pos (beq_iff_eq.mpr rfl),
          if_pos (beq_iff_eq.mpr hq.symm)] at this
        exact Option.some.inj this
      have htail : l1 = l2 := by
        refine ih l2 hkt hndt ?_
        intro k
        by_cases hkp : k = p.1
        · have h1 : jsGet l1 k = none := (jsGet_eq_none_iff l1 k).mpr (hkp ▸ hp1)
          have h2 : jsGet l2 k = none := by
            refine (jsGet_eq_none_iff l2 k).mpr ?_
            rw [← hkt]
            exact hkp ▸ hp1
          rw [h1, h2]
        · have := hg k
          rw [jsGet_cons, jsGet_cons,
            if_neg (fun hb => hkp (beq_iff_eq.mp hb).symm),
            if_neg (fun hb => hkp (hq ▸ (beq_iff_eq.mp hb).symm))] at this
          exact this
      calc p :: l1 = (p.1, p.2) :: l1 := rfl
        _ = (q.1, q.2) :: l2 := by rw [hq, hv, htail]
        _ = q :: l2 := rfl

/-- Lookup in a list pairing keys with a function of the key. -/
theorem jsGet_pairMap (ks : List String) (g : String → α) (k : String) :
    jsGet (ks.map (fun k2 => (k2, g k2))) k =
      if k ∈ ks then some (g k) else none := by
  induction ks with
  | nil => simp [jsGet]
  | cons h t ih =>
    rw [List.map_cons, jsGet_cons]
    by_cases hh : (h == k) = true
    · have he : h = k := beq_iff_eq.mp hh
      rw [if_pos hh, if_pos (he ▸ List.mem_cons_self h t), he]
    · have hne : ¬ h = k := fun hx => hh (beq_iff_eq.mpr hx)
      rw [if_neg hh, ih]
      by_cases hm : k ∈ t
      · rw [if_pos hm, if_pos (List.mem_cons_of_mem _ hm)]
      · rw [if_neg hm, if_neg]
        intro hx
        rcases List.mem_cons.mp hx with he | ht
        · exact hne he.symm
        · exact hm ht

/-- Keys of a list pairing keys with a function of the key. -/
theorem keysOf_pairMap (ks : List String) (g : String → α) :
    keysOf (ks.map (fun k2 => (k2, g k2))) = ks := by
  induction ks with
  | nil => rfl
  | cons h t ih => rw [List.map_cons, keysOf_cons, ih]

/-- Chained monthly or daily updates starting from a present value: the
income and expense components each accumulate the matching amounts. -/
theorem chainUp_incExp (l : List Transaction) (a : IncExp) :
    chainUp (fun _ => (⟨0, 0⟩ : IncExp)) applyIncExp (some a) l =
      some ⟨a.income + txAmountSum (l.filter (fun t => t.type == TxType.income)),
            a.expense + txAmountSum (l.filter (fun t => t.type == TxType.expense))⟩ := by
  induction l generalizing a with
  | nil => simp [chainUp, txAmountSum]
  | cons t ts ih =>
    rw [chainUp]
    simp only [Option.getD]
    rw [ih]
    rcases hty : t.type with _ | _ <;>
      simp [applyIncExp, hty, txAmountSum, List.filter_cons, IncExp.mk.injEq] <;>
      ring

/-- Chained monthly or daily updates starting from a fresh bucket. -/
theorem chainUp_incExp_cons (t : Transaction) (ts : List Transaction) :
    chainUp (fun _ => (⟨0, 0⟩ : IncExp)) applyIncExp none (t :: ts) =
      some ⟨txAmountSum ((t :: ts).filter (fun x => x.type == TxType.income)),
            txAmountSum ((t :: ts).filter (fun x => x.type == TxType.expense))⟩ := by
  rw [chainUp]
  simp only [Option.getD]
  rw [chainUp_incExp]
  rcases hty : t.type with _ | _ <;>
    simp [applyIncExp, hty, txAmountSum, List.filter_cons, IncExp.mk.injEq]

/-- The monthly fold equals the spec-worded bucket list: keys in
first-seen order, each paired with its income and expense sums. -/
theorem monthlyFold_eq (ts : List Transaction) :
    foldUpsert (fun t => monthLabel t.date) (fun _ => (⟨0, 0⟩ : IncExp)) applyIncExp [] ts =
      (firstSeenKeys (ts.map (fun t => monthLabel t.date))).map
        (fun k => (k,
          (⟨txAmountSum ((ts.filter (fun t => monthLabel t.date == k)).filter
              (fun t => t.type == TxType.income)),
            txAmountSum ((ts.filter (fun t => monthLabel t.date == k)).filter
              (fun t => t.type == TxType.expense))⟩ : IncExp))) := by
  apply assoc_ext
  · rw [keysOf_foldUpsert, keysOf_pairMap]
    rfl
  · rw [keysOf_foldUpsert]
    simpa using nodup_newKeys (ts.map (fun t => monthLabel t.date)) []
  · intro k
    rw [jsGet_foldUpsert, jsGet_pairMap]
    rcases hm : ts.filter (fun t => monthLabel t.date == k) with _ | ⟨t, l⟩
    · have hk : ¬ k ∈ firstSeenKeys (ts.map (fun t => monthLabel t.date)) := by
        intro hmem
        rcases (mem_newKeys _ _ _).mp hmem with ⟨h1, _⟩
        rcases List.mem_map.mp h1 with ⟨t, ht, hkey⟩
        have hmem2 : t ∈ ts.filter (fun t => monthLabel t.date == k) :=
          List.mem_filter.mpr ⟨ht, beq_iff_eq.mpr hkey⟩
        rw [hm] at hmem2
        exact absurd hmem2 (List.not_mem_nil t)
      rw [if_neg hk, hm]
      rfl
    · have hkmem : k ∈ firstSeenKeys (ts.map (fun t => monthLabel t.date)) := by
        have hmem2 : t ∈ ts.filter (fun t => monthLabel t.date == k) := by
          rw [hm]
          exact List.mem_cons_self t l
        rcases List.mem_filter.mp hmem2 with ⟨ht, hkey⟩
        exact (mem_newKeys _ _ _).mpr
          ⟨List.mem_map.mpr ⟨t, ht, beq_iff_eq.mp hkey⟩, List.not_mem_nil k⟩
      rw [if_pos hkmem, hm]
      exact chainUp_incExp_cons t l

/-- C6: with an active session getMonthlyData equals the last six of the
spec-worded bucket list built over the owner rows in ledger (arrival)
order - buckets keyed by locale month label in first-seen order, summing
amount into income or expense by type - and with no session it is empty. -/
theorem claim_C6_monthly (st : LedgerState) :
    (∀ u : SessionUser, st.user = some u →
      getMonthlyData st = lastN 6 (monthlyBucketsSpec
        (st.transactions.filter (fun t => t.userId == u.id)))) ∧
    (st.user = none → getMonthlyData st = []) := by
  constructor
  · intro u hu
    simp only [getMonthlyData, hu]
    rw [monthlyFold_eq, monthlyBucketsSpec, List.map_map]
    rfl
  · intro hu
    simp [getMonthlyData, hu]

/-- C6 witness at the sample ledger and at a session-less ledger. -/
theorem claim_C6_witness :
    (exLedger.user = some exUser ∧
      getMonthlyData exLedger = lastN 6 (monthlyBucketsSpec
        (exLedger.transactions.filter (fun t => t.userId == exUser.id)))) ∧
    (exNoneLedger.user = none ∧ getMonthlyData exNoneLedger = []) :=
  ⟨⟨rfl, (claim_C6_monthly exLedger).1 exUser rfl⟩,
   ⟨rfl, (claim_C6_monthly exNoneLedger).2 rfl⟩⟩

/-- In a repeat-free association list every stored pair is what jsGet
returns. -/
theorem jsGet_of_mem_nodup (m : List (String × α)) (k : String) (v : α)
    (hnd : (keysOf m).Nodup) (hmem : (k, v) ∈ m) : jsGet m k = some v := by
  induction m with
  | nil => exact absurd hmem (List.not_mem_nil _)
  | cons p rest ih =>
    rw [keysOf_cons] at hnd
    rcases List.nodup_cons.mp hnd with ⟨hp1, hndt⟩
    rcases List.mem_cons.mp hmem with he | h2
    · rw [← he, jsGet_cons, if_pos (beq_iff_eq.mpr rfl)]
    · have hk : k ∈ keysOf rest := by
        show k ∈ rest.map (fun p => p.1)
        exact List.mem_map.mpr ⟨(k, v), h2, rfl⟩
      have hne : ¬ (p.1 == k) = true := fun hb => hp1 ((beq_iff_eq.mp hb) ▸ hk)
      rw [jsGet_cons, if_neg hne]
      exact ih hndt h2

/-- Chained category updates starting from a present value: the amount
accumulates and the stored type is kept. -/
theorem chainUp_cat (l : List Transaction) (a : CatAgg) :
    chainUp (fun t => (⟨0, t.type⟩ : CatAgg)) applyTxCat (some a) l =
      some ⟨a.amount + txAmountSum l, a.type⟩ := by
  induction l generalizing a with
  | nil => simp [chainUp, txAmountSum]
  | cons t ts ih =>
    rw [chainUp]
    simp only [Option.getD]
    rw [ih]
    simp [applyTxCat, txAmountSum, CatAgg.mk.injEq]
    ring

/-- Chained category updates starting from a fresh bucket: the amount is
the sum of the matching amounts and the type is that of the first row. -/
theorem chainUp_cat_cons (t : Transaction) (ts : List Transaction) :
    chainUp (fun x => (⟨0, x.type⟩ : CatAgg)) applyTxCat none (t :: ts) =
      some ⟨txAmountSum (t :: ts), t.type⟩ := by
  rw [chainUp]
  simp only [Option.getD]
  rw [chainUp_cat]
  simp [applyTxCat, txAmountSum, CatAgg.mk.injEq]

/-- Assigning a fresh key adds its amount to the stored total. -/
theorem sumVals_jsAssign_none (m : List (String × CatAgg)) (k : String) (w : CatAgg)
    (hg : jsGet m k = none) :
    ((jsAssign m k w).map (fun p => p.2.amount)).sum =
      (m.map (fun p => p.2.amount)).sum + w.amount := by
  induction m with
  | nil => simp [jsAssign]
  | cons p rest ih =>
    rw [jsGet_cons] at hg
    by_cases hp : (p.1 == k) = true
    · rw [if_pos hp] at hg
      exact absurd hg (by simp)
    · rw [if_neg hp] at hg
      rw [jsAssign, if_neg hp, List.map_cons, List.sum_cons, ih hg,
        List.map_cons, List.sum_cons]
      ring

/-- Reassigning a stored key trades its old amount for the new one in
the stored total. -/
theorem sumVals_jsAssign_some (m : List (String × CatAgg)) (k : String) (w v : CatAgg)
    (hg : jsGet m k = some v) :
    ((jsAssign m k w).map (fun p => p.2.amount)).sum =
      (m.map (fun p => p.2.amount)).sum - v.amount + w.amount := by
  induction m with
  | nil => exact absurd hg (by simp [jsGet])
  | cons p rest ih =>
    rw [jsGet_cons] at hg
    by_cases hp : (p.1 == k) = true
    · rw [if_pos hp] at hg
      have hv : p.2 = v := Option.some.inj hg
      rw [jsAssign, if_pos hp, List.map_cons, List.sum_cons,
        List.map_cons, List.sum_cons, hv]
      ring
    · rw [if_neg hp] at hg
      rw [jsAssign, if_neg hp, List.map_cons, List.sum_cons, ih hg,
        List.map_cons, List.sum_cons]
      ring

/-- The category fold adds exactly the amounts of the folded rows to the
stored total. -/
theorem sumVals_foldUpsert_cat (ts : List Transaction) (m : List (String × CatAgg)) :
    ((foldUpsert (fun t => catKey t.category t.type) (fun t => (⟨0, t.type⟩ : CatAgg))
        applyTxCat m ts).map (fun p => p.2.amount)).sum =
      (m.map (fun p => p.2.amount)).sum + txAmountSum ts := by
  induction ts generalizing m with
  | nil => simp [foldUpsert, txAmountSum]
  | cons t ts ih =>
    have hstep : foldUpsert (fun t => catKey t.category t.type)
        (fun t => (⟨0, t.type⟩ : CatAgg)) applyTxCat m (t :: ts) =
        foldUpsert (fun t => catKey t.category t.type) (fun t => (⟨0, t.type⟩ : CatAgg))
          applyTxCat (jsUpsert m (catKey t.category t.type) ⟨0, t.type⟩ (applyTxCat t)) ts :=
      rfl
    have hup : ((jsUpsert m (catKey t.category t.type) ⟨0, t.type⟩
          (applyTxCat t)).map (fun p => p.2.amount)).sum =
        (m.map (fun p => p.2.amount)).sum + t.amount := by
      rcases hg : jsGet m (catKey t.category t.type) with _ | v
      · rw [jsUpsert, hg, sumVals_jsAssign_none m _ _ hg]
        simp [applyTxCat]
      · rw [jsUpsert, hg, sumVals_jsAssign_some m _ _ v hg]
        simp [applyTxCat]
        ring
    rw [hstep, ih, hup]
    simp [txAmountSum]
    ring

/-- C2: with an active session every stored category bucket holds the sum
of the owner transactions whose pair (category, type) renders its
grouping key, the byCategory amounts total the forOwner amounts, income
and expense buckets of one category have distinct keys, and every emitted
entry carries the amount, type and split category of its bucket. -/
theorem claim_C2_category_sums (st : LedgerState) (u : SessionUser)
    (hu : st.user = some u) :
    (∀ k : String, ∀ v : CatAgg,
      jsGet (foldUpsert (fun t => catKey t.category t.type)
          (fun t => (⟨0, t.type⟩ : CatAgg)) applyTxCat []
          (st.transactions.filter (fun t => t.userId == u.id))) k = some v →
        v.amount = txAmountSum ((getUserTransactions st u.id).filter
          (fun t => catKey t.category t.type == k))) ∧
    ((getCategoryData st).map (fun e => e.amount)).sum =
      txAmountSum (getUserTransactions st u.id) ∧
    (∀ c : String, ¬ catKey c TxType.income = catKey c TxType.expense) ∧
    (∀ e ∈ getCategoryData st, ∃ k : String, ∃ v : CatAgg,
      jsGet (foldUpsert (fun t => catKey t.category t.type)
          (fun t => (⟨0, t.type⟩ : CatAgg)) applyTxCat []
          (st.transactions.filter (fun t => t.userId == u.id))) k = some v ∧
      e.amount = v.amount ∧ e.type = v.type ∧ e.category = firstSegment k) := by
  have hsum : ∀ k : String,
      txAmountSum ((getUserTransactions st u.id).filter
        (fun t => catKey t.category t.type == k)) =
      txAmountSum (((st.transactions.filter (fun t => t.userId == u.id))).filter
        (fun t => catKey t.category t.type == k)) := by
    intro k
    exact (((sortByDateDesc_perm
      (st.transactions.filter (fun t => t.userId == u.id))).filter
        (fun t => catKey t.category t.type == k)).map (fun t => t.amount)).sum_eq
  refine ⟨?_, ?_, ?_, ?_⟩
  · intro k v hv
    rw [jsGet_foldUpsert] at hv
    rcases hm : (st.transactions.filter (fun t => t.userId == u.id)).filter
        (fun t => catKey t.category t.type == k) with _ | ⟨t, l⟩
    · rw [hm] at hv
      exact absurd hv (by simp [chainUp, jsGet])
    · have hv2 : chainUp (fun x => (⟨0, x.type⟩ : CatAgg)) applyTxCat none (t :: l) =
          some v := by
        rw [← hm]
        exact hv
      rw [chainUp_cat_cons] at hv2
      have hva : v.amount = txAmountSum (t :: l) := by
        rw [← Option.some.inj hv2]
      rw [hva, hsum k, hm]
  · simp only [getCategoryData, hu]
    rw [List.map_map]
    show ((foldUpsert (fun t => catKey t.category t.type)
        (fun t => (⟨0, t.type⟩ : CatAgg)) applyTxCat []
        (st.transactions.filter (fun t => t.userId == u.id))).map
          (fun p => p.2.amount)).sum = _
    rw [sumVals_foldUpsert_cat]
    have hall := ((sortByDateDesc_perm
      (st.transactions.filter (fun t => t.userId == u.id))).map
        (fun t => t.amount)).sum_eq
    simp only [getUserTransactions, txAmountSum]
    rw [hall]
    simp
  · intro c h
    have h2 := congrArg String.length h
    simp only [catKey, TxType.str, String.length_append] at h2
    have l2 : ("income" : String).length = 6 := rfl
    have l3 : ("expense" : String).length = 7 := rfl
    rw [l2, l3] at h2
    omega
  · intro e he
    simp only [getCategoryData, hu] at he
    rcases List.mem_map.mp he with ⟨p, hp, hentry⟩
    have hnd : (keysOf (foldUpsert (fun t => catKey t.category t.type)
        (fun t => (⟨0, t.type⟩ : CatAgg)) applyTxCat []
        (st.transactions.filter (fun t => t.userId == u.id)))).Nodup := by
      rw [keysOf_foldUpsert]
      simpa using nodup_newKeys _ _
    refine ⟨p.1, p.2, jsGet_of_mem_nodup _ p.1 p.2 hnd hp, ?_, ?_, ?_⟩ <;>
      rw [← hentry]

/-- C2 witness at the sample ledger. -/
theorem claim_C2_witness :
    exLedger.user = some exUser ∧
    ((getCategoryData exLedger).map (fun e => e.amount)).sum =
      txAmountSum (getUserTransactions exLedger exUser.id) ∧
    ¬ catKey ("Food") TxType.income = catKey ("Food") TxType.expense :=
  ⟨rfl, (claim_C2_category_sums exLedger exUser rfl).2.1,
   (claim_C2_category_sums exLedger exUser rfl).2.2.1 ("Food")⟩

/-- takeWhile stops before a failing element appended after the prefix. -/
theorem takeWhile_append_cons_of_neg (q : Char → Bool) (c : Char)
    (xs ys : List Char) (hq : q c = false) :
    (xs ++ c :: ys).takeWhile q = xs.takeWhile q := by
  induction xs with
  | nil => simp [List.takeWhile_cons, hq]
  | cons x xs ih =>
    rw [List.cons_append, List.takeWhile_cons, List.takeWhile_cons]
    by_cases hx : q x = true
    · rw [if_pos hx, if_pos hx, ih]
    · rw [if_neg hx, if_neg hx]

/-- Splitting the grouping key at hyphens keeps exactly the first split
segment of the original category: the hyphen inserted before the type
cuts everything the type could contribute. -/
theorem firstSegment_catKey (c : String) (ty : TxType) :
    firstSegment (catKey c ty) = firstSegment c := by
  have hdata : (catKey c ty).data = c.data ++ ('-' :: ty.str.data) := by
    simp only [catKey, String.data_append, List.append_assoc]
    rfl
  show String.mk ((catKey c ty).data.takeWhile (fun ch => ch != '-')) = _
  rw [hdata, takeWhile_append_cons_of_neg (fun ch => ch != '-') '-' c.data ty.str.data rfl]
  rfl

/-- A category without hyphen is reported unchanged. -/
theorem firstSegment_of_no_hyphen (s : String) (h : ∀ ch ∈ s.data, ¬ ch = '-') :
    firstSegment s = s := by
  have ht : s.data.takeWhile (fun ch => ch != '-') = s.data := by
    rw [List.takeWhile_eq_self_iff]
    intro ch hch
    simp [h ch hch]
  show String.mk (s.data.takeWhile (fun ch => ch != '-')) = s
  rw [ht]

/-- C10: the category reported by getCategoryData is the first
hyphen-split segment of the grouping key, which equals the original
category truncated at its first hyphen - so hyphen-free categories are
reported unchanged, hyphenated ones lose everything from the first
hyphen on - and every emitted entry takes its category and type from some
owner transaction this way. -/
theorem claim_C10_split_category :
    (∀ c : String, ∀ ty : TxType, firstSegment (catKey c ty) = firstSegment c) ∧
    (∀ s : String, (∀ ch ∈ s.data, ¬ ch = '-') → firstSegment s = s) ∧
    (∀ st : LedgerState, ∀ u : SessionUser, st.user = some u →
      ∀ e ∈ getCategoryData st, ∃ t : Transaction,
        t ∈ st.transactions.filter (fun x => x.userId == u.id) ∧
        e.category = firstSegment t.category ∧ e.type = t.type) := by
  refine ⟨fun c ty => firstSegment_catKey c ty, fun s h => firstSegment_of_no_hyphen s h, ?_⟩
  intro st u hu e he
  simp only [getCategoryData, hu] at he
  rcases List.mem_map.mp he with ⟨p, hp, hentry⟩
  have hnd : (keysOf (foldUpsert (fun t => catKey t.category t.type)
      (fun t => (⟨0, t.type⟩ : CatAgg)) applyTxCat []
      (st.transactions.filter (fun t => t.userId == u.id)))).Nodup := by
    rw [keysOf_foldUpsert]
    simpa using nodup_newKeys _ _
  have hget := jsGet_of_mem_nodup _ p.1 p.2 hnd hp
  rw [jsGet_foldUpsert] at hget
  rcases hm : (st.transactions.filter (fun t => t.userId == u.id)).filter
      (fun t => catKey t.category t.type == p.1) with _ | ⟨t, l⟩
  · rw [hm] at hget
    exact absurd hget (by simp [chainUp, jsGet])
  · have hget2 : chainUp (fun x => (⟨0, x.type⟩ : CatAgg)) applyTxCat none (t :: l) =
        some p.2 := by
      rw [← hm]
      exact hget
    rw [chainUp_cat_cons] at hget2
    have hpv : p.2 = (⟨txAmountSum (t :: l), t.type⟩ : CatAgg) :=
      (Option.some.inj hget2).symm
    have htmem : t ∈ st.transactions.filter (fun x => x.userId == u.id) := by
      have hmem2 : t ∈ (st.transactions.filter (fun t => t.userId == u.id)).filter
          (fun t => catKey t.category t.type == p.1) := by
        rw [hm]
        exact List.mem_cons_self t l
      exact (List.mem_filter.mp hmem2).1
    have hkey : catKey t.category t.type = p.1 := by
      have hmem2 : t ∈ (st.transactions.filter (fun t => t.userId == u.id)).filter
          (fun t => catKey t.category t.type == p.1) := by
        rw [hm]
        exact List.mem_cons_self t l
      exact beq_iff_eq.mp (List.mem_filter.mp hmem2).2
    refine ⟨t, htmem, ?_, ?_⟩
    · rw [← hentry]
      show firstSegment p.1 = firstSegment t.category
      rw [← hkey, firstSegment_catKey]
    · rw [← hentry]
      show p.2.type = t.type
      rw [hpv]

/-- C10 witness: the key of a hyphenated category splits back to its
leading segment, and a hyphen-free category is reported unchanged. -/
theorem claim_C10_witness :
    firstSegment (catKey ("Food-Drinks") TxType.expense) = firstSegment ("Food-Drinks") ∧
    firstSegment ("Food") = "Food" ∧
    firstSegment ("Food-Drinks") = "Food" :=
  ⟨claim_C10_split_category.1 ("Food-Drinks") TxType.expense,
   claim_C10_split_category.2.1 ("Food") (by decide),
   rfl⟩

/-- The seven short weekday names are pairwise distinct. -/
theorem weekdayNames_distinct :
    ∀ a b : Fin 7, ¬ a = b → ¬ strAt weekdayNames a.val = strAt weekdayNames b.val := by
  decide

/-- Equal weekday labels force equal residues modulo 7. -/
theorem weekdayName_inj (d1 d2 : Int) (h : weekdayName d1 = weekdayName d2) :
    (d1 + 4) % 7 = (d2 + 4) % 7 := by
  have hb1 : 0 ≤ (d1 + 4) % 7 := Int.emod_nonneg _ (by norm_num)
  have hb2 : (d1 + 4) % 7 < 7 := Int.emod_lt_of_pos _ (by norm_num)
  have hb3 : 0 ≤ (d2 + 4) % 7 := Int.emod_nonneg _ (by norm_num)
  have hb4 : (d2 + 4) % 7 < 7 := Int.emod_lt_of_pos _ (by norm_num)
  by_contra hne
  have ha : ((d1 + 4) % 7).toNat < 7 := by omega
  have hb : ((d2 + 4) % 7).toNat < 7 := by omega
  have hne2 : ¬ (⟨((d1 + 4) % 7).toNat, ha⟩ : Fin 7) =
      (⟨((d2 + 4) % 7).toNat, hb⟩ : Fin 7) := by
    intro he
    rw [Fin.mk.injEq] at he
    omega
  exact weekdayNames_distinct _ _ hne2 h

/-- The seven seeded labels are pairwise distinct: seven consecutive days
hit all seven weekday names. -/
theorem seedLabels_nodup (td : Int) : (seedLabels td).Nodup := by
  rw [seedLabels]
  refine List.Nodup.map_on ?_ (List.nodup_range 7)
  intro j hj j2 hj2 heq
  have hres := weekdayName_inj _ _ heq
  rw [List.mem_range] at hj hj2
  have hsub : ((td - 6 + (j : Int) + 4) - (td - 6 + (j2 : Int) + 4)) % 7 = 0 := by
    rw [Int.sub_emod, hres]
    simp
  have hlin : (td - 6 + (j : Int) + 4) - (td - 6 + (j2 : Int) + 4) =
      (j : Int) - (j2 : Int) := by ring
  rw [hlin] at hsub
  have hdvd := Int.dvd_of_emod_eq_zero hsub
  omega

/-- Every weekday label is among the seven seeded labels. -/
theorem weekdayName_mem_seedLabels (td d : Int) : weekdayName d ∈ seedLabels td := by
  have hb1 : 0 ≤ (d - td + 6) % 7 := Int.emod_nonneg _ (by norm_num)
  have hb2 : (d - td + 6) % 7 < 7 := Int.emod_lt_of_pos _ (by norm_num)
  have hq := Int.emod_add_ediv (d - td + 6) 7
  rw [seedLabels]
  have hj : (((d - td + 6) % 7)).toNat < 7 := by omega
  refine List.mem_map.mpr ⟨(((d - td + 6) % 7)).toNat, List.mem_range.mpr hj, ?_⟩
  have harg2 : td - 6 + (((((d - td + 6) % 7)).toNat : Int)) + 4 =
      d + 4 + 7 * (-((d - td + 6) / 7)) := by omega
  show strAt weekdayNames ((td - 6 + (((((d - td + 6) % 7)).toNat : Int)) + 4) % 7).toNat =
    strAt weekdayNames ((d + 4) % 7).toNat
  rw [harg2, Int.add_mul_emod_self_left]

/-- Keys of the append of two association lists. -/
theorem keysOf_append (m1 m2 : List (String × α)) :
    keysOf (m1 ++ m2) = keysOf m1 ++ keysOf m2 := by
  show (m1 ++ m2).map (fun p => p.1) = _
  rw [List.map_append]
  rfl

/-- Assigning a fresh key appends the pair. -/
theorem jsAssign_fresh (m : List (String × α)) (k : String) (v : α)
    (h : ¬ k ∈ keysOf m) : jsAssign m k v = m ++ [(k, v)] := by
  induction m with
  | nil => rfl
  | cons p rest ih =>
    rw [keysOf_cons] at h
    have hp : ¬ (p.1 == k) = true := by
      intro hb
      exact h ((beq_iff_eq.mp hb) ▸ List.mem_cons_self _ _)
    rw [jsAssign, if_neg hp, List.cons_append, ih (fun hm => h (List.mem_cons_of_mem _ hm))]

/-- Folding assignments of pairwise fresh keys appends all the pairs. -/
theorem foldAssign_eq (ks : List String) (v : α) (m : List (String × α))
    (hdisj : ∀ k ∈ ks, ¬ k ∈ keysOf m) (hnd : ks.Nodup) :
    ks.foldl (fun m2 k => jsAssign m2 k v) m = m ++ ks.map (fun k => (k, v)) := by
  induction ks generalizing m with
  | nil => simp
  | cons h t ih =>
    rcases List.nodup_cons.mp hnd with ⟨hh, hndt⟩
    rw [List.foldl_cons, jsAssign_fresh m h v (hdisj h (List.mem_cons_self h t))]
    rw [ih (m ++ [(h, v)]) ?_ hndt]
    · rw [List.map_cons, List.append_assoc, List.singleton_append]
    · intro k hk hmem
      rw [keysOf_append] at hmem
      rcases List.mem_append.mp hmem with h1 | h2
      · exact hdisj k (List.mem_cons_of_mem _ hk) h1
      · have : k = h := by
          have hk2 : k ∈ keysOf [(h, v)] := h2
          rw [keysOf_cons] at hk2
          rcases List.mem_cons.mp hk2 with he | habs
          · exact he
          · exact absurd habs (List.not_mem_nil k)
        exact hh (this ▸ hk)

/-- The seeding loop yields the seven labels each paired with zeros. -/
theorem seedDaily_eq (td : Int) :
    seedDaily td = (seedLabels td).map (fun s => (s, (⟨0, 0⟩ : IncExp))) := by
  rw [seedDaily, ← List.foldl_map (fun (j : Nat) => weekdayName (td - 6 + (j : Int)))
    (fun m2 k => jsAssign m2 k (⟨0, 0⟩ : IncExp)) (List.range 7) []]
  rw [foldAssign_eq ((List.range 7).map (fun (j : Nat) => weekdayName (td - 6 + (j : Int))))
    (⟨0, 0⟩ : IncExp) []
    (fun k _ hm => absurd hm (List.not_mem_nil k)) (seedLabels_nodup td)]
  rw [List.nil_append, seedLabels]

/-- A jsModify on a stored key succeeds and keeps the key list. -/
theorem jsModify_some (m : List (String × α)) (k : String) (f : α → α)
    (hmem : k ∈ keysOf m) :
    ∃ m2, jsModify m k f = some m2 ∧ keysOf m2 = keysOf m := by
  induction m with
  | nil => exact absurd hmem (List.not_mem_nil _)
  | cons p rest ih =>
    by_cases hp : (p.1 == k) = true
    · refine ⟨(k, f p.2) :: rest, by rw [jsModify, if_pos hp], ?_⟩
      rw [keysOf_cons, keysOf_cons, beq_iff_eq.mp hp]
    · have hk : k ∈ keysOf rest := by
        rw [keysOf_cons] at hmem
        rcases List.mem_cons.mp hmem with he | h2
        · exact absurd (beq_iff_eq.mpr he.symm) hp
        · exact h2
      rcases ih hk with ⟨m2, h1, h2⟩
      refine ⟨p :: m2, ?_, ?_⟩
      · rw [jsModify, if_neg hp, h1]
        rfl
      · rw [keysOf_cons, keysOf_cons, h2]

/-- The daily transaction fold always succeeds once every weekday label
is stored, and it never adds or removes a bucket. -/
theorem dailyFold_some (todayMs : Int) (ts : List Transaction)
    (m : List (String × IncExp)) (hcov : ∀ d : Int, weekdayName d ∈ keysOf m) :
    ∃ m2, ts.foldlM (dailyStep todayMs) m = some m2 ∧ keysOf m2 = keysOf m := by
  induction ts generalizing m with
  | nil => exact ⟨m, rfl, rfl⟩
  | cons t ts ih =>
    rw [List.foldlM_cons]
    rcases hstep : dailyStep todayMs m t with _ | m1
    · exfalso
      rw [dailyStep] at hstep
      by_cases hw : (todayMs - t.date).fdiv msPerDay < 7
      · rw [if_pos hw] at hstep
        rcases jsModify_some m (weekdayName (dayNumber t.date)) (applyIncExp t)
          (hcov _) with ⟨m2, h1, _⟩
        rw [h1] at hstep
        cases hstep
      · rw [if_neg hw] at hstep
        cases hstep
    · have hkeys : keysOf m1 = keysOf m := by
        rw [dailyStep] at hstep
        by_cases hw : (todayMs - t.date).fdiv msPerDay < 7
        · rw [if_pos hw] at hstep
          rcases jsModify_some m (weekdayName (dayNumber t.date)) (applyIncExp t)
            (hcov _) with ⟨m2, h1, h2⟩
          rw [h1] at hstep
          exact (Option.some.inj hstep) ▸ h2
        · rw [if_neg hw] at hstep
          exact (Option.some.inj hstep) ▸ rfl
      rcases ih m1 (fun d => hkeys ▸ hcov d) with ⟨m2, h1, h2⟩
      refine ⟨m2, ?_, h2.trans hkeys⟩
      exact h1

/-- C4: with an active session getDailyData always succeeds and returns
exactly seven entries - one per weekday label of the last seven calendar
days including today, in loop order, the labels being pairwise distinct -
however many owner rows fall in the window; with no owner rows at all the
seven buckets come back exactly as seeded, at zero income and expense. -/
theorem claim_C4_daily_seven (st : LedgerState) (todayMs : Int) (u : SessionUser)
    (hu : st.user = some u) :
    (getDailyData st todayMs).isSome = true ∧
    ((getDailyData st todayMs).getD []).length = 7 ∧
    ((getDailyData st todayMs).getD []).map (fun e => e.day) =
      seedLabels (dayNumber todayMs) ∧
    (seedLabels (dayNumber todayMs)).Nodup ∧
    (st.transactions.filter (fun t => t.userId == u.id) = [] →
      (getDailyData st todayMs).getD [] =
        (seedLabels (dayNumber todayMs)).map (fun s => (⟨s, 0, 0⟩ : DayEntry))) := by
  have hcov : ∀ d : Int, weekdayName d ∈ keysOf (seedDaily (dayNumber todayMs)) := by
    intro d
    rw [seedDaily_eq, keysOf_pairMap]
    exact weekdayName_mem_seedLabels _ d
  rcases dailyFold_some todayMs (st.transactions.filter (fun t => t.userId == u.id))
      (seedDaily (dayNumber todayMs)) hcov with ⟨m2, hfold, hkeys⟩
  have hdata : getDailyData st todayMs =
      some (m2.map (fun p => (⟨p.1, p.2.income, p.2.expense⟩ : DayEntry))) := by
    simp only [getDailyData, hu, hfold, Option.map_some']
  have hkeys2 : keysOf m2 = seedLabels (dayNumber todayMs) := by
    rw [hkeys, seedDaily_eq, keysOf_pairMap]
  have h7 : (seedLabels (dayNumber todayMs)).length = 7 := by
    rw [seedLabels, List.length_map, List.length_range]
  have hml : m2.length = 7 := by
    have hlen := congrArg List.length hkeys2
    simp only [keysOf, List.length_map] at hlen
    rw [h7] at hlen
    exact hlen
  refine ⟨?_, ?_, ?_, seedLabels_nodup _, ?_⟩
  · rw [hdata]
    rfl
  · rw [hdata, Option.getD_some, List.length_map]
    exact hml
  · rw [hdata, Option.getD_some, List.map_map]
    show keysOf m2 = _
    exact hkeys2
  · intro hemp
    have hm2 : seedDaily (dayNumber todayMs) = m2 := by
      rw [hemp] at hfold
      exact Option.some.inj hfold
    rw [hdata, Option.getD_some, ← hm2, seedDaily_eq, List.map_map]
    rfl

/-- C4 witness at an owner-empty ledger with an active session. -/
theorem claim_C4_witness :
    (getDailyData exEmptyLedger 0).isSome = true ∧
    ((getDailyData exEmptyLedger 0).getD []).length = 7 ∧
    ((getDailyData exEmptyLedger 0).getD []).map (fun e => e.day) =
      seedLabels (dayNumber 0) ∧
    (getDailyData exEmptyLedger 0).getD [] =
      (seedLabels (dayNumber 0)).map (fun s => (⟨s, 0, 0⟩ : DayEntry)) :=
  ⟨(claim_C4_daily_seven exEmptyLedger 0 exUser rfl).1,
   (claim_C4_daily_seven exEmptyLedger 0 exUser rfl).2.1,
   (claim_C4_daily_seven exEmptyLedger 0 exUser rfl).2.2.1,
   (claim_C4_daily_seven exEmptyLedger 0 exUser rfl).2.2.2.2 rfl⟩
